import Mathlib

/-!
Verification of the `image_to_text` pipeline (preprocessing, OCR gateway,
post-processing) against its specification.  The Python sources are embedded
shallowly: strings become `List Char`, the regular-expression substitutions of
`post_processing.py` become explicit leftmost-match rewriting functions, the
fallible preprocessing pipeline returns `Except`, and the thread interleavings
of the singleton `OCREngine` become a small-step relation.
-/

namespace ImageToText

/-! ### Character classes

Python's `re` module classes `\s`, `[A-Z]` and `\w`, restricted to the ASCII
range (the repository only ever feeds ASCII text through these functions; the
non-ASCII members of Python's classes are not modelled). -/

/-- ASCII whitespace, as matched by Python's `\s` and stripped by `str.strip`. -/
def isPySpace (c : Char) : Bool :=
  c = ' ' || c = '\t' || c = '\n' || c = '\r' || c = '\x0b' || c = '\x0c'

/-- The character class `[A-Z]`. -/
def isUpperAZ (c : Char) : Bool :=
  'A' ≤ c && c ≤ 'Z'

/-- Python's `\w` (ASCII part): letters, digits and underscore. -/
def isWordChar (c : Char) : Bool :=
  ('A' ≤ c && c ≤ 'Z') || ('a' ≤ c && c ≤ 'z') || ('0' ≤ c && c ≤ '9') || c = '_'

/-- ASCII lower-casing, used to model `re.IGNORECASE` comparison. -/
def lowerAZ (c : Char) : Char :=
  if 'A' ≤ c && c ≤ 'Z' then Char.ofNat (c.toNat + 32) else c

/-! ### post_processing.py : `correct_punctuation`

The function applies three `re.sub` calls in order.  Each is embedded as a
function realising that specific pattern's leftmost-match, non-overlapping
substitution semantics. -/

/-- First rewrite of `correct_punctuation`:
`re.sub(r'_\s+([A-Z])', r'. \1', text)`.
Scanning left to right, an underscore followed by a nonempty run of whitespace
and an uppercase letter is replaced by a period, a single space and that
letter; scanning resumes after the matched region. -/
def subUnderscoreWsUpper : List Char → List Char
  | [] => []
  | c :: rest =>
    if c = '_' && !(rest.takeWhile isPySpace).isEmpty
        && isUpperAZ ((rest.dropWhile isPySpace).headD ' ') then
      '.' :: ' ' :: (rest.dropWhile isPySpace).headD ' '
        :: subUnderscoreWsUpper (rest.dropWhile isPySpace).tail
    else
      c :: subUnderscoreWsUpper rest
termination_by l => l.length
decreasing_by
  all_goals simp_wf
  all_goals try omega
  all_goals
    (have h1 : (rest.dropWhile isPySpace).length ≤ rest.length :=
      (List.dropWhile_suffix isPySpace).sublist.length_le
     have h2 : (rest.dropWhile isPySpace).tail.length =
        (rest.dropWhile isPySpace).length - 1 := List.length_tail _
     omega)

/-- Replace a nonempty run of trailing underscores by a single period
(helper for the second rewrite). -/
def replaceTrailUnd (l : List Char) : List Char :=
  if (l.reverse.head?) = some '_' then
    (l.reverse.dropWhile (fun c => c = '_')).reverse ++ ['.']
  else l

/-- Second rewrite of `correct_punctuation`: `re.sub(r'_+$', '.', text)`.
Python's `$` (without `re.MULTILINE`) matches at the end of the string and
also just before a newline that ends the string, so a run of underscores in
either position becomes a single period. -/
def subTrailingUnderscores (l : List Char) : List Char :=
  if l.reverse.head? = some '\n' then
    replaceTrailUnd l.dropLast ++ ['\n']
  else
    replaceTrailUnd l

/-- Third rewrite of `correct_punctuation`: `re.sub(r'_(\s*)$', r'.\1', text)`.
The leftmost underscore whose entire suffix is whitespace is replaced by a
period; the captured whitespace `\1` is emitted unchanged.  (The
before-final-newline position of `$` adds no further matches here because a
newline is itself whitespace.) -/
def subUnderscoreTrailWs : List Char → List Char
  | [] => []
  | c :: rest =>
    if c = '_' && rest.all isPySpace then
      '.' :: rest
    else
      c :: subUnderscoreTrailWs rest

/-- `correct_punctuation` from `post_processing.py`: the three rewrites in
source order, each feeding the next. -/
def correctPunctList (l : List Char) : List Char :=
  subUnderscoreTrailWs (subTrailingUnderscores (subUnderscoreWsUpper l))

/-- `correct_punctuation(text)` on Lean strings. -/
def correct_punctuation (s : String) : String :=
  ⟨correctPunctList s.data⟩

/-! ### post_processing.py : `clean_ocr_text` -/

/-- `re.sub(r'\s+', ' ', text)`: every maximal nonempty run of whitespace
becomes a single space. -/
def collapseWs : List Char → List Char
  | [] => []
  | [c] => if isPySpace c then [' '] else [c]
  | c :: d :: rest =>
    if isPySpace c && isPySpace d then collapseWs (d :: rest)
    else (if isPySpace c then ' ' else c) :: collapseWs (d :: rest)

/-- `str.strip()`, leading side. -/
def pyLstrip (l : List Char) : List Char := l.dropWhile isPySpace

/-- `str.strip()`, trailing side. -/
def pyRstrip (l : List Char) : List Char := (l.reverse.dropWhile isPySpace).reverse

/-- `text.strip()`. -/
def pyStrip (l : List Char) : List Char := pyRstrip (pyLstrip l)

/-- `clean_ocr_text` from `post_processing.py`: punctuation correction, then
whitespace collapsing, then stripping. -/
def cleanList (l : List Char) : List Char :=
  pyStrip (collapseWs (correctPunctList l))

/-- `clean_ocr_text(text)` on Lean strings. -/
def clean_ocr_text (s : String) : String :=
  ⟨cleanList s.data⟩

/-! Normal-form predicates used to prove that `clean_ocr_text` is idempotent:
a cleaned string satisfies all of them, and on strings satisfying them every
stage of `clean_ocr_text` is the identity. -/

/-- `uwuHead rest` holds when `rest` begins with a nonempty whitespace run
followed by an uppercase letter — i.e. when an underscore placed before
`rest` would be rewritten by the first `correct_punctuation` rule. -/
def uwuHead (l : List Char) : Bool :=
  !(l.takeWhile isPySpace).isEmpty && isUpperAZ ((l.dropWhile isPySpace).headD ' ')

/-- No position of the list matches the first rewrite's pattern
`_\s+[A-Z]`. -/
def noUWUB : List Char → Bool
  | [] => true
  | c :: rest => !(c = '_' && uwuHead rest) && noUWUB rest

/-- No underscore is followed only by whitespace (so neither the second nor
the third rewrite of `correct_punctuation` can fire). -/
def noTrailUndB : List Char → Bool
  | [] => true
  | c :: rest => !(c = '_' && rest.all isPySpace) && noTrailUndB rest

/-- The whitespace of the list is collapsed: every whitespace character is a
plain space and no two adjacent characters are both whitespace. -/
def collapsedB : List Char → Bool
  | [] => true
  | [c] => !isPySpace c || c = ' '
  | c :: d :: rest =>
    (!isPySpace c || (c = ' ' && !isPySpace d)) && collapsedB (d :: rest)

/-! ### post_processing.py : `apply_ocr_corrections` -/

/-- Case-insensitive comparison of a pattern with a prefix of the subject,
modelling a `re.escape`d (hence literal) pattern under `re.IGNORECASE`. -/
def matchesCI : List Char → List Char → Bool
  | [], _ => true
  | _ :: _, [] => false
  | p :: ps, c :: cs => lowerAZ p = lowerAZ c && matchesCI ps cs

/-- Python's `\b` word-boundary test between an optional previous character
and an optional next character: word-ness must differ (out of bounds counts
as non-word). -/
def wordBoundary (prev next : Option Char) : Bool :=
  (match prev with | none => false | some c => isWordChar c)
    ≠ (match next with | none => false | some c => isWordChar c)

/-- One `re.sub(r'\b' + re.escape(incorrect) + r'\b', correct, text,
flags=re.IGNORECASE)` pass, for a nonempty pattern `p0 :: ps`: scan left to
right carrying the previous subject character, replace each word-bounded
case-insensitive occurrence, and resume after the matched region (matching
always against the original characters). -/
def replaceWB (p0 : Char) (ps rep : List Char) (prev : Option Char) :
    List Char → List Char
  | [] => []
  | c :: cs =>
    if wordBoundary prev (some c) && matchesCI (p0 :: ps) (c :: cs)
        && wordBoundary ((c :: cs).take (ps.length + 1)).reverse.head?
             ((c :: cs).drop (ps.length + 1)).head? then
      rep ++ replaceWB p0 ps rep ((c :: cs).take (ps.length + 1)).reverse.head?
        ((c :: cs).drop (ps.length + 1))
    else
      c :: replaceWB p0 ps rep (some c) cs
termination_by l => l.length
decreasing_by
  all_goals simp_wf
  all_goals (try simp [List.length_drop])
  all_goals omega

/-- `apply_ocr_corrections` from `post_processing.py`.  The Python dict is
modelled as an association list in iteration (insertion) order; the falsy
cases `None` and `{}` are both the empty list.  (A mapping with an empty-string
key, whose zero-width regex behaviour the repository never relies on, is
treated as matching nothing.) -/
def apply_ocr_corrections (text : String) (corrections : List (String × String)) : String :=
  if corrections = [] then text
  else corrections.foldl
    (fun t pr =>
      match pr.1.data with
      | [] => t
      | p0 :: ps => ⟨replaceWB p0 ps pr.2.data none t.data⟩) text

/-! ### ocr_engine.py : `OCREngine.extract_text`

The PaddleOCR call is an external collaborator; `extract_text` is verified
over an arbitrary engine result.  A result is a list of top-level groups
(`for line in result`), each group a list of text boxes; a text box is a
Python list whose element `1` is the `[text, confidence]` pair, so it is
modelled as a positional `List (List String)`.  A falsy (`None`) result or
group behaves exactly like an empty list in the two truthiness tests the
code performs, and is modelled by `[]`.  An out-of-range `text_box[1][0]`
access (Python `IndexError`) is modelled by `none`. -/

/-- One OCR text box: a positional list whose index-1 entry is the
`[text, confidence]` pair. -/
abbrev TextBox := List (List String)

/-- The inner loop `for text_box in line`, collecting `text_box[1][0]` for
each box that passes `if text_box and len(text_box) >= 2`. -/
def boxTexts : List TextBox → Option (List String)
  | [] => some []
  | tb :: tbs =>
    if tb ≠ [] && 2 ≤ tb.length then
      match tb.get? 1 with
      | none => none
      | some pair =>
        match pair.head? with
        | none => none
        | some t => (boxTexts tbs).map (fun ts => t :: ts)
    else boxTexts tbs

/-- The outer loop `for line in result`. -/
def groupTexts : List (List TextBox) → Option (List String)
  | [] => some []
  | g :: gs => do
    let ts ← boxTexts g
    let rest ← groupTexts gs
    pure (ts ++ rest)

/-- `OCREngine.extract_text`, from the engine result onward:
`if not result or not result[0]: return ""`, then the nested collection
loops, then `" ".join(texts).strip()`. -/
def extract_text (result : List (List TextBox)) : Option String :=
  if result.isEmpty || result.head? = some [] then some ""
  else
    match groupTexts result with
    | none => none
    | some texts => some ⟨pyStrip (String.intercalate " " texts).data⟩

/-! ### preprocessing.py : `preprocess_image`

The OpenCV calls are external collaborators, supplied as an abstract
environment `CvEnv`; `preprocess_image` composes them exactly as the source
does and additionally records the sequence of image operations it performs,
so that claims about the order of pipeline stages can be stated.
`cv2.getStructuringElement` itself is modelled concretely because its
argument validation decides a claim: OpenCV asserts that its first argument
is one of the structuring-element shapes `MORPH_RECT = 0`, `MORPH_CROSS = 1`,
`MORPH_ELLIPSE = 2`, and raises `cv2.error` otherwise. -/

/-- An image buffer: height, width, channel count, and a sample function. -/
structure Img where
  rows : Nat
  cols : Nat
  chans : Nat
  pix : Nat → Nat → Nat → Int

/-- OpenCV colour-conversion codes used by the pipeline. -/
inductive ColorCode
  | BGR2RGB | RGB2GRAY | GRAY2RGB | RGB2LAB | LAB2RGB
deriving DecidableEq

/-- The image operations the pipeline can perform, in the sense of §4.1 of
the specification; `edgePreservingSmooth` is the spec's step (a), recorded by
no code path. -/
inductive CvOp
  | imread | cvtBGR2RGB | cvtRGB2GRAY | threshold | getStructElem
  | morphClose | dilate | cvtGRAY2RGB | inpaint | cvtRGB2LAB | split
  | clahe | merge | cvtLAB2RGB | clip | edgePreservingSmooth
deriving DecidableEq

/-- `cv2.MORPH_RECT`. -/
def MORPH_RECT : Nat := 0

/-- `cv2.MORPH_CROSS`. -/
def MORPH_CROSS : Nat := 1

/-- `cv2.MORPH_ELLIPSE`. -/
def MORPH_ELLIPSE : Nat := 2
/-- `cv2.MORPH_CLOSE`, a morphological *operation* code (for
`cv2.morphologyEx`), not a structuring-element shape. -/
def MORPH_CLOSE : Nat := 3

/-- A structuring element (kernel). -/
structure Kernel where
  shape : Nat
  ksize : Nat × Nat

/-- Errors surfaced by the pipeline: `FileNotFoundError` (the spec's
`NotFound`) and a propagated `cv2.error`. -/
inductive PErr | notFound | cvError
deriving DecidableEq

/-- `cv2.getStructuringElement(shape, ksize)`: OpenCV's
`CV_Assert(shape == MORPH_RECT || shape == MORPH_CROSS || shape == MORPH_ELLIPSE)`
raises `cv2.error` for any other shape argument. -/
def getStructuringElement (shape : Nat) (ksize : Nat × Nat) : Except PErr Kernel :=
  if shape = MORPH_RECT ∨ shape = MORPH_CROSS ∨ shape = MORPH_ELLIPSE then
    .ok ⟨shape, ksize⟩
  else .error .cvError

/-- The external environment: the filesystem probe, the image decoder and the
OpenCV image transformations the pipeline delegates to. -/
structure CvEnv where
  pathExists : String → Bool
  imread : String → Option Img
  cvtColor : Img → ColorCode → Img
  threshold : Img → Int → Int → Img
  morphologyEx : Img → Nat → Kernel → Img
  dilate : Img → Kernel → Nat → Img
  inpaint : Img → Img → Int → Img
  split3 : Img → Img × Img × Img
  claheApply : Int → Nat × Nat → Img → Img
  merge3 : Img → Img → Img → Img

/-- The path argument: `isinstance(image_path, str)` distinguishes strings
from every other object. -/
inductive PyPath
  | str (s : String)
  | nonstr

/-- `np.clip(image, 0, 255)` (with the subsequent exact `astype(np.uint8)`):
clamp every sample into `[0, 255]`. -/
def clipImg (img : Img) : Img :=
  ⟨img.rows, img.cols, img.chans, fun y x c => max 0 (min 255 (img.pix y x c))⟩

/-- `preprocess_image` from `preprocessing.py`, returning the performed image
operations alongside the result.  The structure follows the source line by
line; the two `getStructuringElement` calls pass `cv2.MORPH_CLOSE` and
`cv2.MORPH_ELLIPSE` respectively as the shape argument. -/
def preprocess_image (env : CvEnv) (p : PyPath) : List CvOp × Except PErr Img :=
  match p with
  | .nonstr => ([], .error .notFound)
  | .str s =>
    if env.pathExists s = false then ([], .error .notFound)
    else
      match env.imread s with
      | none => ([.imread], .error .notFound)
      | some img0 =>
        let image := env.cvtColor img0 .BGR2RGB
        let gray := env.cvtColor image .RGB2GRAY
        let shadowMask := env.threshold gray 150 255
        match getStructuringElement MORPH_CLOSE (5, 5) with
        | .error e =>
          ([.imread, .cvtBGR2RGB, .cvtRGB2GRAY, .threshold, .getStructElem],
           .error e)
        | .ok kernel =>
          let shadowMask := env.morphologyEx shadowMask MORPH_CLOSE kernel
          match getStructuringElement MORPH_ELLIPSE (3, 3) with
          | .error e =>
            ([.imread, .cvtBGR2RGB, .cvtRGB2GRAY, .threshold, .getStructElem,
              .morphClose, .getStructElem], .error e)
          | .ok kernel2 =>
            let shadowMask := env.dilate shadowMask kernel2 1
            let shadowMaskRGB := env.cvtColor shadowMask .GRAY2RGB
            let image := env.inpaint image (env.cvtColor shadowMaskRGB .RGB2GRAY) 3
            let lab := env.cvtColor image .RGB2LAB
            let parts := env.split3 lab
            let lch := env.claheApply 3 (8, 8) parts.1
            let lab2 := env.merge3 lch parts.2.1 parts.2.2
            let image := env.cvtColor lab2 .LAB2RGB
            ([.imread, .cvtBGR2RGB, .cvtRGB2GRAY, .threshold, .getStructElem,
              .morphClose, .getStructElem, .dilate, .cvtGRAY2RGB, .inpaint,
              .cvtRGB2LAB, .split, .clahe, .merge, .cvtLAB2RGB, .clip],
             .ok (clipImg image))

/-- A concrete environment for witnesses: every path exists and decodes to a
2×2 white RGB image; the abstract transformations are identities. -/
def testEnv : CvEnv where
  pathExists := fun _ => true
  imread := fun _ => some ⟨2, 2, 3, fun _ _ _ => 255⟩
  cvtColor := fun img _ => img
  threshold := fun img _ _ => img
  morphologyEx := fun img _ _ => img
  dilate := fun img _ _ => img
  inpaint := fun img _ _ => img
  split3 := fun img => (img, img, img)
  claheApply := fun _ _ img => img
  merge3 := fun img _ _ => img

/-- A concrete environment in which no path exists. -/
def envMissing : CvEnv :=
  { testEnv with pathExists := fun _ => false }

/-- A concrete environment in which the path exists but is not decodable. -/
def envUndecodable : CvEnv :=
  { testEnv with imread := fun _ => none }

/-- The operation sequence asserted by claim C7: decode, canonical RGB,
edge-preserving smoothing, luminance/chrominance conversion, CLAHE on the
luminance channel, conversion back to RGB, clamping. -/
def claimC7Ops : List CvOp :=
  [.imread, .cvtBGR2RGB, .edgePreservingSmooth, .cvtRGB2LAB, .clahe,
   .cvtLAB2RGB, .clip]

/-! ### ocr_engine.py : the `OCREngine` singleton under concurrency

Every thread calling `OCREngine()` executes `__new__` and then, always,
`__init__` on the returned instance.  The shared state is `cls._instance`
(whether it is set), the instance attribute `_initialized`, the class lock,
and — the quantity the claims are about — the number of `PaddleOCR(...)`
constructor invocations.  Each small step below executes one or a few
consecutive Python statements of one thread; the CPython GIL serialises the
threads at statement granularity, so every interleaving of these steps is a
schedule the real program can take. -/

/-- Shared state of the gateway. -/
structure GState where
  inst : Bool
  initFlag : Bool
  lock : Option Nat
  paddle : Nat
deriving DecidableEq

/-- Program counter of one thread running `OCREngine()`.
`n1`–`n5` are inside `__new__` (first check, waiting for the lock, second
check, creating the instance, releasing); `i1`–`i3` are inside `__init__`
(the `_initialized` check, the `PaddleOCR(...)` call, setting the flag);
`fin` is completion. -/
inductive TPc
  | n1 | n2 | n3 | n4 | n5 | i1 | i2 | i3 | fin
deriving DecidableEq

/-- A configuration: shared state plus each thread's program counter. -/
structure Config where
  g : GState
  ths : List TPc
deriving DecidableEq

/-- One GIL-serialised step of one thread `i` of `OCREngine.__new__` /
`OCREngine.__init__`. -/
inductive GStep : Config → Config → Prop
  /-- `__new__`: `if cls._instance is None` reads a set instance; the
  with-block is skipped, `return cls._instance` yields it and `__init__`
  begins. -/
  | firstCheckSome (g : GState) (ths : List TPc) (i : Nat)
      (h : ths.get? i = some .n1) (hg : g.inst = true) :
      GStep ⟨g, ths⟩ ⟨g, ths.set i .i1⟩
  /-- `__new__`: the first check reads an unset instance. -/
  | firstCheckNone (g : GState) (ths : List TPc) (i : Nat)
      (h : ths.get? i = some .n1) (hg : g.inst = false) :
      GStep ⟨g, ths⟩ ⟨g, ths.set i .n2⟩
  /-- `with cls._lock`: acquire the free lock. -/
  | acquire (g : GState) (ths : List TPc) (i : Nat)
      (h : ths.get? i = some .n2) (hl : g.lock = none) :
      GStep ⟨g, ths⟩ ⟨⟨g.inst, g.initFlag, some i, g.paddle⟩, ths.set i .n3⟩
  /-- Second `if cls._instance is None` under the lock: instance present. -/
  | secondCheckSome (g : GState) (ths : List TPc) (i : Nat)
      (h : ths.get? i = some .n3) (hl : g.lock = some i) (hg : g.inst = true) :
      GStep ⟨g, ths⟩ ⟨g, ths.set i .n5⟩
  /-- Second check under the lock: instance absent. -/
  | secondCheckNone (g : GState) (ths : List TPc) (i : Nat)
      (h : ths.get? i = some .n3) (hl : g.lock = some i) (hg : g.inst = false) :
      GStep ⟨g, ths⟩ ⟨g, ths.set i .n4⟩
  /-- `cls._instance = super().__new__(cls)` and
  `cls._instance._initialized = False`, still under the lock. -/
  | createInst (g : GState) (ths : List TPc) (i : Nat)
      (h : ths.get? i = some .n4) (hl : g.lock = some i) :
      GStep ⟨g, ths⟩ ⟨⟨true, false, g.lock, g.paddle⟩, ths.set i .n5⟩
  /-- Leave the with-block (release the lock); `return cls._instance` and
  `__init__` begins. -/
  | release (g : GState) (ths : List TPc) (i : Nat)
      (h : ths.get? i = some .n5) (hl : g.lock = some i) :
      GStep ⟨g, ths⟩ ⟨⟨g.inst, g.initFlag, none, g.paddle⟩, ths.set i .i1⟩
  /-- `__init__`: `if self._initialized: return` — flag already set. -/
  | initCheckTrue (g : GState) (ths : List TPc) (i : Nat)
      (h : ths.get? i = some .i1) (hf : g.initFlag = true) :
      GStep ⟨g, ths⟩ ⟨g, ths.set i .fin⟩
  /-- `__init__`: the `_initialized` check reads `False` — note this read is
  *not* protected by the class lock. -/
  | initCheckFalse (g : GState) (ths : List TPc) (i : Nat)
      (h : ths.get? i = some .i1) (hf : g.initFlag = false) :
      GStep ⟨g, ths⟩ ⟨g, ths.set i .i2⟩
  /-- `self.ocr = PaddleOCR(use_angle_cls=True, lang="en")`: one invocation
  of the underlying engine constructor. -/
  | construct (g : GState) (ths : List TPc) (i : Nat)
      (h : ths.get? i = some .i2) :
      GStep ⟨g, ths⟩ ⟨⟨g.inst, g.initFlag, g.lock, g.paddle + 1⟩, ths.set i .i3⟩
  /-- `self._initialized = True`. -/
  | setFlag (g : GState) (ths : List TPc) (i : Nat)
      (h : ths.get? i = some .i3) :
      GStep ⟨g, ths⟩ ⟨⟨g.inst, true, g.lock, g.paddle⟩, ths.set i .fin⟩

/-- The initial configuration: engine unconstructed, flag clear, lock free,
no `PaddleOCR` invocations, `n` threads about to call `OCREngine()`. -/
def initConfig (n : Nat) : Config :=
  ⟨⟨false, false, none, 0⟩, List.replicate n .n1⟩

/-- Reachability under the interleaving semantics. -/
def Reaches (a b : Config) : Prop := Relation.ReflTransGen GStep a b

/-! ### Definitions taken from the specification's wording

These follow the spec text (not the source) and exist to be compared with
the source-derived definitions above. -/

/-- Rewrite (1) as worded by claim C3: "an underscore followed by *optional*
whitespace and an uppercase letter becomes a period, a space, and that
uppercase letter" — i.e. the whitespace run may be empty. -/
def specSubUnderscoreOptWsUpper : List Char → List Char
  | [] => []
  | c :: rest =>
    if c = '_' && isUpperAZ ((rest.dropWhile isPySpace).headD ' ') then
      '.' :: ' ' :: (rest.dropWhile isPySpace).headD ' '
        :: specSubUnderscoreOptWsUpper (rest.dropWhile isPySpace).tail
    else
      c :: specSubUnderscoreOptWsUpper rest
termination_by l => l.length
decreasing_by
  all_goals simp_wf
  all_goals try omega
  all_goals
    (have h1 : (rest.dropWhile isPySpace).length ≤ rest.length :=
      (List.dropWhile_suffix isPySpace).sublist.length_le
     have h2 : (rest.dropWhile isPySpace).tail.length =
        (rest.dropWhile isPySpace).length - 1 := List.length_tail _
     omega)

/-- Rewrite (2) as worded by claim C3: "one-or-more trailing underscores at
the *very end of the string* become a single period". -/
def specSubTrailingUnderscores (l : List Char) : List Char :=
  replaceTrailUnd l

/-- `correctPunctuation` as claim C3 words it: the three rewrites in order,
each output feeding the next (rewrite (3) coincides with the source's). -/
def correctPunctuationSpec (s : String) : String :=
  ⟨subUnderscoreTrailWs (specSubTrailingUnderscores
      (specSubUnderscoreOptWsUpper s.data))⟩

/-- The recognized string of a region, as the spec describes a text box:
its index-1 entry holds the recognized string first. -/
def regionString (tb : TextBox) : String :=
  match tb.get? 1 with
  | some pair => pair.headD ""
  | none => ""

/-- `extractText` as the spec describes it: on a falsy or empty-headed
top-level result the empty string; otherwise every region's recognized
string, in the engine's returned order (top-level grouping then per-region),
joined with one ASCII space and stripped. -/
def extractTextSpec (result : List (List TextBox)) : String :=
  if result.isEmpty || result.head? = some [] then ""
  else ⟨pyStrip (String.intercalate " " (result.flatten.map regionString)).data⟩

/-- Well-formedness of an engine result: each text box has at least the
polygon and recognition entries, and the recognition entry is nonempty. -/
def WFResult (result : List (List TextBox)) : Prop :=
  ∀ g ∈ result, ∀ tb ∈ g, 2 ≤ tb.length ∧ tb.getD 1 [] ≠ []

/-! ## Helper lemmas -/

theorem isPySpace_of_upper {u : Char} (h : isUpperAZ u = true) :
    isPySpace u = false := by
  by_contra hc
  simp only [Bool.not_eq_false, isPySpace, Bool.or_eq_true, decide_eq_true_eq] at hc
  have hc2 : u = ' ' ∨ u = '\t' ∨ u = '\n' ∨ u = '\r' ∨ u = '\x0b' ∨ u = '\x0c' := by
    tauto
  rcases hc2 with rfl | rfl | rfl | rfl | rfl | rfl <;> revert h <;> decide

theorem dropWhile_all_append {p : Char → Bool} {ws : List Char}
    (h : ws.all p = true) (l : List Char) :
    (ws ++ l).dropWhile p = l.dropWhile p := by
  induction ws with
  | nil => rfl
  | cons w ws ih =>
    simp only [List.all_cons, Bool.and_eq_true] at h
    simp [List.dropWhile_cons_of_pos h.1, ih h.2]

theorem takeWhile_all_append {p : Char → Bool} {ws : List Char}
    (h : ws.all p = true) (l : List Char) :
    (ws ++ l).takeWhile p = ws ++ l.takeWhile p := by
  induction ws with
  | nil => rfl
  | cons w ws ih =>
    simp only [List.all_cons, Bool.and_eq_true] at h
    simp [List.takeWhile_cons_of_pos h.1, ih h.2]

theorem all_takeWhile_self (p : Char → Bool) (X : List Char) :
    (X.takeWhile p).all p = true := by
  induction X with
  | nil => rfl
  | cons a X ih =>
    rw [List.takeWhile_cons]
    split
    · rename_i hpa
      simp [hpa, ih]
    · rfl

/-- Rewrite (1) of `correct_punctuation` fires exactly on an underscore, a
nonempty whitespace run, and an uppercase letter, and resumes after the
letter. -/
theorem subUnderscoreWsUpper_match {ws : List Char} {u : Char}
    (hne : ws ≠ []) (hws : ws.all isPySpace = true) (hu : isUpperAZ u = true)
    (rest : List Char) :
    subUnderscoreWsUpper ('_' :: (ws ++ u :: rest)) =
      '.' :: ' ' :: u :: subUnderscoreWsUpper rest := by
  have hdrop : (ws ++ u :: rest).dropWhile isPySpace = u :: rest := by
    rw [dropWhile_all_append hws]
    exact List.dropWhile_cons_of_neg (by simp [isPySpace_of_upper hu])
  have htake : ((ws ++ u :: rest).takeWhile isPySpace).isEmpty = false := by
    rw [takeWhile_all_append hws]
    cases ws with
    | nil => exact absurd rfl hne
    | cons a l => simp
  simp only [subUnderscoreWsUpper, hdrop, htake]
  simp [hu]

/-- Rewrite (2): a nonempty run of underscores at the very end, the previous
character (if any) not an underscore, becomes a single period. -/
theorem replaceTrailUnd_spec {m : List Char} {k : Nat} (hk : 1 ≤ k)
    (hm : m.reverse.head? ≠ some '_') :
    replaceTrailUnd (m ++ List.replicate k '_') = m ++ ['.'] := by
  obtain ⟨k, rfl⟩ : ∃ j, k = j + 1 := ⟨k - 1, by omega⟩
  have hrev : (m ++ List.replicate (k + 1) '_').reverse =
      List.replicate (k + 1) '_' ++ m.reverse := by
    simp [List.reverse_append]
  have hall : (List.replicate (k + 1) '_').all (fun c => c = '_') = true := by
    simp [List.all_eq_true]
  rw [replaceTrailUnd, hrev]
  have hhead : (List.replicate (k + 1) '_' ++ m.reverse).head? = some '_' := by
    simp [List.replicate_succ]
  rw [if_pos hhead]
  rw [dropWhile_all_append hall]
  have hmdrop : m.reverse.dropWhile (fun c => c = '_') = m.reverse := by
    cases hrm : m.reverse with
    | nil => rfl
    | cons a l =>
      refine List.dropWhile_cons_of_neg ?_
      rw [hrm] at hm
      simp only [List.head?_cons] at hm
      simp only [decide_eq_true_eq]
      intro hc
      exact hm (by rw [hc])
  rw [hmdrop, List.reverse_reverse]

/-- Rewrite (3): the trailing underscore before an all-whitespace suffix
becomes a period, the whitespace kept. -/
theorem subUnderscoreTrailWs_spec {ws : List Char}
    (hws : ws.all isPySpace = true) (m : List Char) :
    subUnderscoreTrailWs (m ++ '_' :: ws) = m ++ '.' :: ws := by
  induction m with
  | nil => simp [subUnderscoreTrailWs, hws]
  | cons c m ih =>
    have h3 : isPySpace '_' = false := by decide
    have h2 : (m ++ '_' :: ws).all isPySpace = false := by
      rw [List.all_append, List.all_cons, h3]
      simp
    have hcond : (decide (c = '_') && (m ++ '_' :: ws).all isPySpace) = false := by
      rw [h2]
      simp
    rw [List.cons_append, subUnderscoreTrailWs.eq_def]
    simp only [hcond]
    simp [ih]

/-- Rewrite (2) at the very end of the string. -/
theorem subTrailingUnderscores_end {m : List Char} {k : Nat} (hk : 1 ≤ k)
    (hm : m.reverse.head? ≠ some '_') :
    subTrailingUnderscores (m ++ List.replicate k '_') = m ++ ['.'] := by
  have hhead : (m ++ List.replicate k '_').reverse.head? = some '_' := by
    obtain ⟨k, rfl⟩ : ∃ j, k = j + 1 := ⟨k - 1, by omega⟩
    rw [List.reverse_append, List.reverse_replicate, List.replicate_succ]
    simp
  rw [subTrailingUnderscores, hhead]
  simp only [Option.some.injEq]
  rw [if_neg (by decide)]
  exact replaceTrailUnd_spec hk hm

/-- Rewrite (2) just before a newline that ends the string: Python's `$`
also matches there. -/
theorem subTrailingUnderscores_newline {m : List Char} {k : Nat} (hk : 1 ≤ k)
    (hm : m.reverse.head? ≠ some '_') :
    subTrailingUnderscores (m ++ List.replicate k '_' ++ ['\n']) =
      m ++ ['.', '\n'] := by
  have hhead : (m ++ List.replicate k '_' ++ ['\n']).reverse.head? = some '\n' := by
    simp [List.reverse_append]
  rw [subTrailingUnderscores, hhead, if_pos rfl]
  rw [List.dropLast_concat]
  rw [replaceTrailUnd_spec hk hm]
  simp

theorem boxTexts_of_wf {g : List TextBox}
    (h : ∀ tb ∈ g, 2 ≤ tb.length ∧ tb.getD 1 [] ≠ []) :
    boxTexts g = some (g.map regionString) := by
  induction g with
  | nil => rfl
  | cons tb tbs ih =>
    obtain ⟨hlen, hpair⟩ := h tb (List.mem_cons_self tb tbs)
    match tb with
    | [] => simp at hlen
    | [a] => simp at hlen
    | a :: b :: r =>
      match b, hpair with
      | t :: bs, _ =>
        have ihr := ih (fun x hx => h x (List.mem_cons_of_mem _ hx))
        simp [boxTexts, regionString, ihr]

theorem groupTexts_of_wf {result : List (List TextBox)} (h : WFResult result) :
    groupTexts result = some (result.flatten.map regionString) := by
  induction result with
  | nil => rfl
  | cons g gs ih =>
    have hg := boxTexts_of_wf (h g (List.mem_cons_self g gs))
    have ihr := ih (fun x hx => h x (List.mem_cons_of_mem _ hx))
    simp [groupTexts, hg, ihr]

/-! ## Idempotence machinery for `clean_ocr_text` -/

theorem ws_not_underscore {w : Char} (h : isPySpace w = true) :
    (decide (w = '_')) = false := by
  by_contra hc
  simp only [Bool.not_eq_false, decide_eq_true_eq] at hc
  subst hc
  exact absurd h (by decide)

theorem upper_not_underscore {u : Char} (h : isUpperAZ u = true) :
    (decide (u = '_')) = false := by
  by_contra hc
  simp only [Bool.not_eq_false, decide_eq_true_eq] at hc
  subst hc
  exact absurd h (by decide)

theorem uwuHead_nil : uwuHead [] = false := rfl

theorem uwuHead_cons_ws {a : Char} (h : isPySpace a = true) (X : List Char) :
    uwuHead (a :: X) = isUpperAZ ((X.dropWhile isPySpace).headD ' ') := by
  simp [uwuHead, List.takeWhile_cons, List.dropWhile_cons, h]

theorem uwuHead_cons_nonws {a : Char} (h : isPySpace a = false) (X : List Char) :
    uwuHead (a :: X) = false := by
  simp [uwuHead, List.takeWhile_cons, h]

theorem uwuHead_head_ws {X : List Char} (h : uwuHead X = true) :
    ∃ a X2, X = a :: X2 ∧ isPySpace a = true := by
  cases X with
  | nil => exact absurd h (by decide)
  | cons a X2 =>
    refine ⟨a, X2, rfl, ?_⟩
    by_contra hc
    rw [Bool.not_eq_true] at hc
    rw [uwuHead_cons_nonws hc] at h
    exact absurd h (by decide)

/-- Upper-after-whitespace transport: any character-wise rewriting `f` that
passes whitespace through and either passes a non-whitespace head through or
emits a period cannot create an uppercase letter at the head of the
post-whitespace position. -/
theorem upperAfterWs_transport (f : List Char → List Char)
    (hnil : f [] = [])
    (hws : ∀ w X, isPySpace w = true → f (w :: X) = w :: f X)
    (hnw : ∀ v X, isPySpace v = false →
      f (v :: X) = v :: f X ∨ (f (v :: X)).head? = some '.') :
    ∀ m, isUpperAZ (((f m).dropWhile isPySpace).headD ' ') = true →
      isUpperAZ ((m.dropWhile isPySpace).headD ' ') = true := by
  intro m
  induction m with
  | nil => rw [hnil]; exact fun h => h
  | cons b r ih =>
    intro h
    cases hb : isPySpace b with
    | true =>
      rw [hws b r hb, List.dropWhile_cons_of_pos hb] at h
      rw [List.dropWhile_cons_of_pos hb]
      exact ih h
    | false =>
      rw [List.dropWhile_cons_of_neg (by simp [hb]), List.headD_cons]
      rcases hnw b r hb with heq | hdot
      · rw [heq, List.dropWhile_cons_of_neg (by simp [hb]), List.headD_cons] at h
        exact h
      · exfalso
        cases hfc : f (b :: r) with
        | nil => rw [hfc] at hdot; exact absurd hdot (by simp)
        | cons z Z =>
          rw [hfc] at hdot h
          simp only [List.head?_cons, Option.some.injEq] at hdot
          subst hdot
          rw [List.dropWhile_cons_of_neg (by decide), List.headD_cons] at h
          exact absurd h (by decide)

/-- `uwuHead` transport for the same class of rewriting functions. -/
theorem uwuHead_transport (f : List Char → List Char)
    (hnil : f [] = [])
    (hws : ∀ w X, isPySpace w = true → f (w :: X) = w :: f X)
    (hnw : ∀ v X, isPySpace v = false →
      f (v :: X) = v :: f X ∨ (f (v :: X)).head? = some '.') :
    ∀ m, uwuHead (f m) = true → uwuHead m = true := by
  intro m h
  cases m with
  | nil => rw [hnil] at h; exact h
  | cons a rest =>
    cases ha : isPySpace a with
    | true =>
      rw [hws a rest ha] at h
      rw [uwuHead_cons_ws ha] at h ⊢
      exact upperAfterWs_transport f hnil hws hnw rest h
    | false =>
      exfalso
      rcases hnw a rest ha with heq | hdot
      · rw [heq, uwuHead_cons_nonws ha] at h
        exact absurd h (by decide)
      · obtain ⟨z, Z, hzZ, hz⟩ := uwuHead_head_ws h
        rw [hzZ] at hdot
        simp only [List.head?_cons, Option.some.injEq] at hdot
        subst hdot
        exact absurd hz (by decide)

theorem sub1_cons_ws {w : Char} (h : isPySpace w = true) (X : List Char) :
    subUnderscoreWsUpper (w :: X) = w :: subUnderscoreWsUpper X := by
  rw [subUnderscoreWsUpper]
  rw [ws_not_underscore h]
  simp

theorem sub1_cases_nonws {v : Char} (h : isPySpace v = false) (X : List Char) :
    subUnderscoreWsUpper (v :: X) = v :: subUnderscoreWsUpper X ∨
      (subUnderscoreWsUpper (v :: X)).head? = some '.' := by
  rw [subUnderscoreWsUpper]
  by_cases hc : (decide (v = '_') && !(X.takeWhile isPySpace).isEmpty
      && isUpperAZ ((X.dropWhile isPySpace).headD ' ')) = true
  · right; rw [if_pos hc]; rfl
  · left; rw [if_neg hc]

theorem sub3_cons_ws {w : Char} (h : isPySpace w = true) (X : List Char) :
    subUnderscoreTrailWs (w :: X) = w :: subUnderscoreTrailWs X := by
  rw [subUnderscoreTrailWs]
  rw [ws_not_underscore h]
  simp

theorem sub3_cases_nonws {v : Char} (h : isPySpace v = false) (X : List Char) :
    subUnderscoreTrailWs (v :: X) = v :: subUnderscoreTrailWs X ∨
      (subUnderscoreTrailWs (v :: X)).head? = some '.' := by
  rw [subUnderscoreTrailWs]
  by_cases hc : (decide (v = '_') && X.all isPySpace) = true
  · right; rw [if_pos hc]; rfl
  · left; rw [if_neg hc]

theorem uwuHead_sub1 (m : List Char) :
    uwuHead (subUnderscoreWsUpper m) = true → uwuHead m = true :=
  uwuHead_transport subUnderscoreWsUpper (by simp [subUnderscoreWsUpper])
    (fun w X h => sub1_cons_ws h X) (fun v X h => sub1_cases_nonws h X) m

theorem uwuHead_sub3 (m : List Char) :
    uwuHead (subUnderscoreTrailWs m) = true → uwuHead m = true :=
  uwuHead_transport subUnderscoreTrailWs rfl
    (fun w X h => sub3_cons_ws h X) (fun v X h => sub3_cases_nonws h X) m

theorem noUWUB_tail {c : Char} {rest : List Char}
    (h : noUWUB (c :: rest) = true) : noUWUB rest = true := by
  simp only [noUWUB, Bool.and_eq_true] at h
  exact h.2

/-- The first rewrite of `correct_punctuation` leaves no occurrence of its
own pattern in its output. -/
theorem noUWUB_sub1 (m : List Char) : noUWUB (subUnderscoreWsUpper m) = true := by
  induction m using subUnderscoreWsUpper.induct with
  | case1 => simp [subUnderscoreWsUpper, noUWUB]
  | case2 c rest hcond ih =>
    have hu : isUpperAZ ((rest.dropWhile isPySpace).headD ' ') = true := by
      simp only [Bool.and_eq_true] at hcond
      exact hcond.2
    rw [subUnderscoreWsUpper, if_pos hcond]
    have d1 : (decide ('.' = '_')) = false := by decide
    have d2 : (decide (' ' = '_')) = false := by decide
    cases hdw : rest.dropWhile isPySpace with
    | nil =>
      rw [hdw] at hu
      exact absurd hu (by decide)
    | cons u w =>
      rw [hdw] at hu ih
      simp only [List.headD_cons, List.tail_cons] at hu ih
      simp only [noUWUB, d1, d2, Bool.false_and, Bool.not_false, Bool.true_and]
      simp [upper_not_underscore hu, ih]
  | case3 c rest hcond ih =>
    rw [subUnderscoreWsUpper, if_neg hcond]
    simp only [noUWUB, Bool.and_eq_true]
    refine ⟨?_, ih⟩
    by_cases hc : c = '_'
    · subst hc
      have hur : uwuHead rest = false := by
        by_contra hb
        rw [Bool.not_eq_false] at hb
        apply hcond
        rw [uwuHead] at hb
        simp only [Bool.and_eq_true] at hb ⊢
        exact ⟨⟨by decide, hb.1⟩, hb.2⟩
      have h2 : uwuHead (subUnderscoreWsUpper rest) = false := by
        by_contra hb
        rw [Bool.not_eq_false] at hb
        rw [uwuHead_sub1 rest hb] at hur
        exact absurd hur (by decide)
      simp [h2]
    · simp [hc]

theorem uwuHead_append {X Y : List Char} (h : uwuHead X = true) :
    uwuHead (X ++ Y) = true := by
  obtain ⟨a, X2, rfl, ha⟩ := uwuHead_head_ws h
  rw [uwuHead_cons_ws ha] at h
  rw [List.cons_append, uwuHead_cons_ws ha]
  cases hdw : X2.dropWhile isPySpace with
  | nil =>
    rw [hdw] at h
    exact absurd h (by decide)
  | cons u w =>
    rw [hdw] at h
    rw [List.dropWhile_append, hdw]
    simpa using h

/-- `uwuHead` is reflected by removal of a non-uppercase last character. -/
theorem uwuHead_concat_nonupper {X : List Char} {k : Char}
    (hk : isUpperAZ k = false) (h : uwuHead (X ++ [k]) = true) :
    uwuHead X = true := by
  cases X with
  | nil =>
    exfalso
    simp only [List.nil_append] at h
    cases hwk : isPySpace k with
    | true =>
      rw [uwuHead_cons_ws hwk] at h
      exact absurd h (by decide)
    | false =>
      rw [uwuHead_cons_nonws hwk] at h
      exact absurd h (by decide)
  | cons a X2 =>
    cases ha : isPySpace a with
    | false =>
      rw [List.cons_append, uwuHead_cons_nonws ha] at h
      exact absurd h (by decide)
    | true =>
      rw [List.cons_append, uwuHead_cons_ws ha] at h
      rw [uwuHead_cons_ws ha]
      cases hdw : X2.dropWhile isPySpace with
      | nil =>
        exfalso
        have hall : X2.all isPySpace = true := by
          rw [← List.takeWhile_append_dropWhile isPySpace X2, hdw, List.append_nil]
          exact all_takeWhile_self isPySpace X2
        rw [dropWhile_all_append hall] at h
        cases hwk : isPySpace k with
        | true =>
          rw [List.dropWhile_cons_of_pos hwk] at h
          exact absurd h (by decide)
        | false =>
          rw [List.dropWhile_cons_of_neg (by simp [hwk])] at h
          simp only [List.headD_cons] at h
          rw [h] at hk
          exact absurd hk (by decide)
      | cons u w =>
        rw [List.dropWhile_append, hdw] at h
        rw [if_neg (by simp)] at h
        simpa using h

theorem noUWUB_append_left {X Y : List Char} (h : noUWUB (X ++ Y) = true) :
    noUWUB X = true := by
  induction X with
  | nil => rfl
  | cons c X2 ih =>
    rw [List.cons_append] at h
    simp only [noUWUB, Bool.and_eq_true] at h ⊢
    refine ⟨?_, ih h.2⟩
    cases hb : (decide (c = '_') && uwuHead X2) with
    | false => simp
    | true =>
      exfalso
      simp only [Bool.and_eq_true, decide_eq_true_eq] at hb
      have := uwuHead_append (Y := Y) hb.2
      simp [hb.1, this] at h

theorem noUWUB_concat_nonupper {X : List Char} {k : Char}
    (h : noUWUB X = true) (hk : isUpperAZ k = false) :
    noUWUB (X ++ [k]) = true := by
  induction X with
  | nil => simp [noUWUB, uwuHead_nil]
  | cons c X2 ih =>
    simp only [noUWUB, Bool.and_eq_true] at h
    rw [List.cons_append]
    simp only [noUWUB, Bool.and_eq_true]
    refine ⟨?_, ih h.2⟩
    cases hb : (decide (c = '_') && uwuHead (X2 ++ [k])) with
    | false => simp
    | true =>
      exfalso
      simp only [Bool.and_eq_true, decide_eq_true_eq] at hb
      have := uwuHead_concat_nonupper hk hb.2
      simp [hb.1, this] at h

theorem noUWUB_dropWhile {p : Char → Bool} {m : List Char}
    (h : noUWUB m = true) : noUWUB (m.dropWhile p) = true := by
  induction m with
  | nil => exact h
  | cons c rest ih =>
    rw [List.dropWhile_cons]
    split
    · exact ih (noUWUB_tail h)
    · exact h

/-- Decomposition of a list into its reverse-side `dropWhile` prefix and an
all-satisfying tail. -/
theorem rev_dropWhile_decomp (p : Char → Bool) (m : List Char) :
    ∃ t, m = (m.reverse.dropWhile p).reverse ++ t ∧ t.all p = true := by
  refine ⟨(m.reverse.takeWhile p).reverse, ?_, ?_⟩
  · have h1 : m.reverse.takeWhile p ++ m.reverse.dropWhile p = m.reverse :=
      List.takeWhile_append_dropWhile p m.reverse
    have h2 := congrArg List.reverse h1
    rw [List.reverse_append, List.reverse_reverse] at h2
    exact h2.symm
  · rw [List.all_reverse]
    exact all_takeWhile_self p m.reverse

theorem noUWUB_replaceTrailUnd {m : List Char} (h : noUWUB m = true) :
    noUWUB (replaceTrailUnd m) = true := by
  rw [replaceTrailUnd]
  split
  · obtain ⟨t, hm, _⟩ := rev_dropWhile_decomp (fun c => c = '_') m
    have hpre : noUWUB ((m.reverse.dropWhile (fun c => c = '_')).reverse) = true :=
      noUWUB_append_left (hm ▸ h)
    exact noUWUB_concat_nonupper hpre (by decide)
  · exact h

theorem dropLast_decomp (m : List Char) : ∃ t, m = m.dropLast ++ t := by
  cases hm : m.reverse with
  | nil =>
    refine ⟨[], ?_⟩
    have : m = [] := by
      have := congrArg List.reverse hm
      simpa using this
    simp [this]
  | cons a t2 =>
    have hne : m ≠ [] := by
      intro hc
      rw [hc] at hm
      exact absurd hm (by simp)
    exact ⟨[m.getLast hne], (List.dropLast_append_getLast hne).symm⟩

theorem noUWUB_sub2 {m : List Char} (h : noUWUB m = true) :
    noUWUB (subTrailingUnderscores m) = true := by
  rw [subTrailingUnderscores]
  split
  · have hdl : noUWUB m.dropLast = true := by
      obtain ⟨t, ht⟩ := dropLast_decomp m
      exact noUWUB_append_left (ht ▸ h)
    exact noUWUB_concat_nonupper (noUWUB_replaceTrailUnd hdl) (by decide)
  · exact noUWUB_replaceTrailUnd h

theorem noUWUB_sub3 {m : List Char} (h : noUWUB m = true) :
    noUWUB (subUnderscoreTrailWs m) = true := by
  induction m with
  | nil => exact h
  | cons c rest ih =>
    simp only [noUWUB, Bool.and_eq_true] at h
    rw [subUnderscoreTrailWs]
    split
    · simp only [noUWUB, Bool.and_eq_true]
      refine ⟨by simp, h.2⟩
    · simp only [noUWUB, Bool.and_eq_true]
      refine ⟨?_, ih h.2⟩
      cases hb : (decide (c = '_') && uwuHead (subUnderscoreTrailWs rest)) with
      | false => simp
      | true =>
        exfalso
        simp only [Bool.and_eq_true, decide_eq_true_eq] at hb
        have := uwuHead_sub3 rest hb.2
        simp [hb.1, this] at h

theorem collapse_head_nonws {d : Char} (hd : isPySpace d = false) (r : List Char) :
    (collapseWs (d :: r)).head? = some d := by
  cases r with
  | nil => simp [collapseWs, hd]
  | cons e r2 => simp [collapseWs, hd]

theorem collapse_ne_nil {m : List Char} (h : m ≠ []) : collapseWs m ≠ [] := by
  induction m with
  | nil => exact absurd rfl h
  | cons c rest ih =>
    cases rest with
    | nil =>
      simp only [collapseWs]
      split <;> simp
    | cons d r2 =>
      simp only [collapseWs]
      split
      · exact ih (by simp)
      · simp

theorem uwuHead_collapse {X : List Char} (h : uwuHead (collapseWs X) = true) :
    uwuHead X = true := by
  induction X with
  | nil => exact h
  | cons b r ih =>
    cases r with
    | nil =>
      exfalso
      by_cases hb : isPySpace b = true
      · rw [show collapseWs [b] = [' '] from by simp [collapseWs, hb]] at h
        exact absurd h (by decide)
      · rw [show collapseWs [b] = [b] from by simp [collapseWs, hb]] at h
        rw [uwuHead_cons_nonws (by simpa using hb)] at h
        exact absurd h (by decide)
    | cons d r2 =>
      by_cases hbd : (isPySpace b && isPySpace d) = true
      · rw [show collapseWs (b :: d :: r2) = collapseWs (d :: r2) from by
          simp only [collapseWs, if_pos hbd]] at h
        have h2 := ih h
        simp only [Bool.and_eq_true] at hbd
        rw [uwuHead_cons_ws hbd.1, List.dropWhile_cons_of_pos hbd.2]
        rw [uwuHead_cons_ws hbd.2] at h2
        exact h2
      · rw [show collapseWs (b :: d :: r2) =
            (if isPySpace b then ' ' else b) :: collapseWs (d :: r2) from by
          simp only [collapseWs, if_neg hbd]] at h
        by_cases hb : isPySpace b = true
        · have hd : isPySpace d = false := by
            cases hdd : isPySpace d with
            | false => rfl
            | true => exact absurd (by simp [hb, hdd]) hbd
          rw [if_pos hb] at h
          rw [uwuHead_cons_ws (by decide)] at h
          have hhd := collapse_head_nonws hd r2
          cases hcc : collapseWs (d :: r2) with
          | nil => rw [hcc] at hhd; exact absurd hhd (by simp)
          | cons z Z =>
            rw [hcc] at hhd h
            simp only [List.head?_cons, Option.some.injEq] at hhd
            subst hhd
            rw [List.dropWhile_cons_of_neg (by simp [hd])] at h
            simp only [List.headD_cons] at h
            rw [uwuHead_cons_ws hb, List.dropWhile_cons_of_neg (by simp [hd])]
            simpa using h
        · rw [if_neg hb] at h
          rw [uwuHead_cons_nonws (by simpa using hb)] at h
          exact absurd h (by decide)

theorem noUWUB_collapse {m : List Char} (h : noUWUB m = true) :
    noUWUB (collapseWs m) = true := by
  induction m with
  | nil => exact h
  | cons c rest ih =>
    cases rest with
    | nil =>
      by_cases hc : isPySpace c = true
      · rw [show collapseWs [c] = [' '] from by simp [collapseWs, hc]]
        decide
      · rw [show collapseWs [c] = [c] from by simp [collapseWs, hc]]
        simp [noUWUB, uwuHead_nil]
    | cons d r2 =>
      have htail : noUWUB (d :: r2) = true := noUWUB_tail h
      by_cases hbd : (isPySpace c && isPySpace d) = true
      · rw [show collapseWs (c :: d :: r2) = collapseWs (d :: r2) from by
          simp only [collapseWs, if_pos hbd]]
        exact ih htail
      · rw [show collapseWs (c :: d :: r2) =
            (if isPySpace c then ' ' else c) :: collapseWs (d :: r2) from by
          simp only [collapseWs, if_neg hbd]]
        by_cases hcw : isPySpace c = true
        · rw [if_pos hcw]
          simp only [noUWUB, Bool.and_eq_true]
          exact ⟨by simp, ih htail⟩
        · rw [if_neg hcw]
          simp only [noUWUB, Bool.and_eq_true]
          refine ⟨?_, ih htail⟩
          cases hb : (decide (c = '_') && uwuHead (collapseWs (d :: r2))) with
          | false => simp
          | true =>
            exfalso
            simp only [Bool.and_eq_true, decide_eq_true_eq] at hb
            have h3 := uwuHead_collapse hb.2
            simp only [noUWUB, Bool.and_eq_true] at h
            have h4 := h.1
            simp [hb.1, h3] at h4

theorem noUWUB_pyRstrip {m : List Char} (h : noUWUB m = true) :
    noUWUB (pyRstrip m) = true := by
  obtain ⟨t, hm, _⟩ := rev_dropWhile_decomp isPySpace m
  exact noUWUB_append_left (hm ▸ h)

theorem noTrailUndB_tail {c : Char} {rest : List Char}
    (h : noTrailUndB (c :: rest) = true) : noTrailUndB rest = true := by
  simp only [noTrailUndB, Bool.and_eq_true] at h
  exact h.2

theorem allws_noTrailUnd {X : List Char} (h : X.all isPySpace = true) :
    noTrailUndB X = true := by
  induction X with
  | nil => rfl
  | cons c rest ih =>
    simp only [List.all_cons, Bool.and_eq_true] at h
    simp only [noTrailUndB, Bool.and_eq_true]
    refine ⟨?_, ih h.2⟩
    rw [ws_not_underscore h.1]
    simp

theorem sub3_all_ws (X : List Char) :
    (subUnderscoreTrailWs X).all isPySpace = X.all isPySpace := by
  induction X with
  | nil => rfl
  | cons c rest ih =>
    rw [subUnderscoreTrailWs]
    split
    · rename_i hcond
      simp only [Bool.and_eq_true, decide_eq_true_eq] at hcond
      rw [hcond.1]
      simp only [List.all_cons]
      rw [show isPySpace '.' = false from by decide,
        show isPySpace '_' = false from by decide]
    · simp [List.all_cons, ih]

theorem noTrailUndB_sub3 (m : List Char) :
    noTrailUndB (subUnderscoreTrailWs m) = true := by
  induction m with
  | nil => rfl
  | cons c rest ih =>
    rw [subUnderscoreTrailWs]
    split
    · rename_i hcond
      simp only [Bool.and_eq_true, decide_eq_true_eq] at hcond
      simp only [noTrailUndB, Bool.and_eq_true]
      exact ⟨by simp, allws_noTrailUnd hcond.2⟩
    · rename_i hcond
      simp only [noTrailUndB, Bool.and_eq_true]
      refine ⟨?_, ih⟩
      by_cases hc : c = '_'
      · subst hc
        have hra : rest.all isPySpace = false := by
          cases hr : rest.all isPySpace with
          | false => rfl
          | true => exact absurd (by simp [hr]) hcond
        rw [sub3_all_ws, hra]
        simp
      · simp [hc]

theorem collapse_all_ws (X : List Char) :
    (collapseWs X).all isPySpace = X.all isPySpace := by
  induction X with
  | nil => rfl
  | cons c rest ih =>
    cases rest with
    | nil =>
      by_cases hc : isPySpace c = true
      · rw [show collapseWs [c] = [' '] from by simp [collapseWs, hc]]
        simp only [List.all_cons, List.all_nil, Bool.and_true, hc]
        decide
      · rw [show collapseWs [c] = [c] from by simp [collapseWs, hc]]
    | cons d r2 =>
      by_cases hbd : (isPySpace c && isPySpace d) = true
      · rw [show collapseWs (c :: d :: r2) = collapseWs (d :: r2) from by
          simp only [collapseWs, if_pos hbd]]
        simp only [Bool.and_eq_true] at hbd
        rw [ih]
        simp [List.all_cons, hbd.1]
      · rw [show collapseWs (c :: d :: r2) =
            (if isPySpace c then ' ' else c) :: collapseWs (d :: r2) from by
          simp only [collapseWs, if_neg hbd]]
        by_cases hcw : isPySpace c = true
        · rw [if_pos hcw]
          simp only [List.all_cons, ih, hcw,
            show isPySpace ' ' = true from by decide]
        · rw [if_neg hcw]
          simp only [List.all_cons, ih]

theorem noTrailUndB_collapse {m : List Char} (h : noTrailUndB m = true) :
    noTrailUndB (collapseWs m) = true := by
  induction m with
  | nil => exact h
  | cons c rest ih =>
    cases rest with
    | nil =>
      simp only [noTrailUndB, List.all_nil, Bool.and_true] at h
      by_cases hc : isPySpace c = true
      · rw [show collapseWs [c] = [' '] from by simp [collapseWs, hc]]
        decide
      · rw [show collapseWs [c] = [c] from by simp [collapseWs, hc]]
        simp only [noTrailUndB, List.all_nil, Bool.and_true]
        exact h
    | cons d r2 =>
      have htail := noTrailUndB_tail h
      by_cases hbd : (isPySpace c && isPySpace d) = true
      · rw [show collapseWs (c :: d :: r2) = collapseWs (d :: r2) from by
          simp only [collapseWs, if_pos hbd]]
        exact ih htail
      · rw [show collapseWs (c :: d :: r2) =
            (if isPySpace c then ' ' else c) :: collapseWs (d :: r2) from by
          simp only [collapseWs, if_neg hbd]]
        by_cases hcw : isPySpace c = true
        · rw [if_pos hcw]
          simp only [noTrailUndB, Bool.and_eq_true]
          exact ⟨by simp, ih htail⟩
        · rw [if_neg hcw]
          simp only [noTrailUndB, Bool.and_eq_true]
          refine ⟨?_, ih htail⟩
          by_cases hc : c = '_'
          · subst hc
            simp only [noTrailUndB, Bool.and_eq_true] at h
            have h4 := h.1
            have hra : (d :: r2).all isPySpace = false := by
              cases hr : (d :: r2).all isPySpace with
              | false => rfl
              | true => simp [hr] at h4
            rw [collapse_all_ws, hra]
            simp
          · simp [hc]

theorem noTrailUndB_dropWhile {p : Char → Bool} {m : List Char}
    (h : noTrailUndB m = true) : noTrailUndB (m.dropWhile p) = true := by
  induction m with
  | nil => exact h
  | cons c rest ih =>
    rw [List.dropWhile_cons]
    split
    · exact ih (noTrailUndB_tail h)
    · exact h

theorem noTrailUndB_append_ws {X W : List Char} (hW : W.all isPySpace = true)
    (h : noTrailUndB (X ++ W) = true) : noTrailUndB X = true := by
  induction X with
  | nil => rfl
  | cons c X2 ih =>
    rw [List.cons_append] at h
    simp only [noTrailUndB, Bool.and_eq_true] at h ⊢
    refine ⟨?_, ih h.2⟩
    have hall : (X2 ++ W).all isPySpace = X2.all isPySpace := by
      rw [List.all_append, hW]
      simp
    rw [← hall]
    exact h.1

theorem noTrailUndB_pyRstrip {m : List Char} (h : noTrailUndB m = true) :
    noTrailUndB (pyRstrip m) = true := by
  obtain ⟨t, hm, hall⟩ := rev_dropWhile_decomp isPySpace m
  exact noTrailUndB_append_ws hall (hm ▸ h)

theorem noTrailUnd_last {m : List Char} (h : noTrailUndB m = true) :
    m.reverse.head? ≠ some '_' := by
  induction m with
  | nil => simp
  | cons c rest ih =>
    cases rest with
    | nil =>
      simp only [noTrailUndB, List.all_nil, Bool.and_true, noTrailUndB,
        Bool.and_true] at h
      simp only [List.reverse_cons, List.reverse_nil, List.nil_append,
        List.head?_cons, ne_eq, Option.some.injEq]
      intro hc
      rw [hc] at h
      simp at h
    | cons d r2 =>
      have ih2 := ih (noTrailUndB_tail h)
      cases ha : (d :: r2).reverse with
      | nil => exact absurd ha (by simp)
      | cons z Z =>
        rw [ha] at ih2
        simp only [List.head?_cons] at ih2
        rw [List.reverse_cons, ha, List.cons_append]
        simpa using ih2

theorem collapsedB_tail {c : Char} {rest : List Char}
    (h : collapsedB (c :: rest) = true) : collapsedB rest = true := by
  cases rest with
  | nil => rfl
  | cons d r2 =>
    simp only [collapsedB, Bool.and_eq_true] at h
    exact h.2

theorem collapsedB_collapse (m : List Char) : collapsedB (collapseWs m) = true := by
  induction m with
  | nil => rfl
  | cons c rest ih =>
    cases rest with
    | nil =>
      by_cases hc : isPySpace c = true
      · rw [show collapseWs [c] = [' '] from by simp [collapseWs, hc]]
        decide
      · rw [show collapseWs [c] = [c] from by simp [collapseWs, hc]]
        simp [collapsedB, hc]
    | cons d r2 =>
      by_cases hbd : (isPySpace c && isPySpace d) = true
      · rw [show collapseWs (c :: d :: r2) = collapseWs (d :: r2) from by
          simp only [collapseWs, if_pos hbd]]
        exact ih
      · rw [show collapseWs (c :: d :: r2) =
            (if isPySpace c then ' ' else c) :: collapseWs (d :: r2) from by
          simp only [collapseWs, if_neg hbd]]
        cases hcc : collapseWs (d :: r2) with
        | nil => exact absurd hcc (collapse_ne_nil (by simp))
        | cons z Z =>
          have hZ : collapsedB (z :: Z) = true := hcc ▸ ih
          by_cases hcw : isPySpace c = true
          · have hd : isPySpace d = false := by
              cases hdd : isPySpace d with
              | false => rfl
              | true => exact absurd (by simp [hcw, hdd]) hbd
            have hz : z = d := by
              have h5 := collapse_head_nonws hd r2
              rw [hcc] at h5
              simp only [List.head?_cons, Option.some.injEq] at h5
              exact h5
            rw [if_pos hcw]
            simp only [collapsedB, Bool.and_eq_true]
            refine ⟨?_, hZ⟩
            rw [hz]
            simp [hd]
          · rw [if_neg hcw]
            simp only [collapsedB, Bool.and_eq_true]
            refine ⟨?_, hZ⟩
            simp [hcw]

theorem collapsedB_append_left {X Y : List Char}
    (h : collapsedB (X ++ Y) = true) : collapsedB X = true := by
  induction X with
  | nil => rfl
  | cons c X2 ih =>
    cases X2 with
    | nil =>
      cases Y with
      | nil => exact h
      | cons y Y2 =>
        simp only [List.cons_append, List.nil_append, collapsedB,
          Bool.and_eq_true] at h
        have h1 := h.1
        simp only [collapsedB]
        cases hcw : isPySpace c with
        | false => simp
        | true =>
          rw [hcw] at h1
          simp only [Bool.not_true, Bool.false_or, Bool.and_eq_true] at h1
          simp [h1.1]
    | cons d X3 =>
      simp only [List.cons_append, collapsedB, Bool.and_eq_true] at h
      simp only [collapsedB, Bool.and_eq_true]
      exact ⟨h.1, ih h.2⟩

theorem collapsedB_dropWhile {p : Char → Bool} {m : List Char}
    (h : collapsedB m = true) : collapsedB (m.dropWhile p) = true := by
  induction m with
  | nil => exact h
  | cons c rest ih =>
    rw [List.dropWhile_cons]
    split
    · exact ih (collapsedB_tail h)
    · exact h

theorem collapsedB_pyRstrip {m : List Char} (h : collapsedB m = true) :
    collapsedB (pyRstrip m) = true := by
  obtain ⟨t, hm, _⟩ := rev_dropWhile_decomp isPySpace m
  exact collapsedB_append_left (hm ▸ h)

theorem collapse_id_of_collapsedB {m : List Char} (h : collapsedB m = true) :
    collapseWs m = m := by
  induction m with
  | nil => rfl
  | cons c rest ih =>
    cases rest with
    | nil =>
      simp only [collapsedB] at h
      by_cases hc : isPySpace c = true
      · rw [hc] at h
        simp only [Bool.not_true, Bool.false_or, decide_eq_true_eq] at h
        simp [collapseWs, hc, h]
      · simp [collapseWs, hc]
    | cons d r2 =>
      simp only [collapsedB, Bool.and_eq_true] at h
      have h1 := h.1
      have hbd : (isPySpace c && isPySpace d) = false := by
        cases hcw : isPySpace c with
        | false => simp
        | true =>
          rw [hcw] at h1
          simp only [Bool.not_true, Bool.false_or, Bool.and_eq_true] at h1
          have hd : isPySpace d = false := by simpa using h1.2
          simp [hd]
      simp only [collapseWs, hbd]
      rw [if_neg (by simp [hbd])]
      have hc2 : (if isPySpace c then ' ' else c) = c := by
        cases hcw : isPySpace c with
        | false => simp
        | true =>
          rw [hcw] at h1
          simp only [Bool.not_true, Bool.false_or, Bool.and_eq_true,
            decide_eq_true_eq] at h1
          simp [h1.1]
      rw [hc2, ih h.2]

theorem sub1_id_of_noUWUB {m : List Char} (h : noUWUB m = true) :
    subUnderscoreWsUpper m = m := by
  induction m with
  | nil => simp [subUnderscoreWsUpper]
  | cons c rest ih =>
    simp only [noUWUB, Bool.and_eq_true] at h
    rw [subUnderscoreWsUpper]
    rw [if_neg ?_]
    · rw [ih h.2]
    · intro hcond
      have h1 := h.1
      rw [Bool.and_assoc] at hcond
      rw [show (!(rest.takeWhile isPySpace).isEmpty &&
          isUpperAZ ((rest.dropWhile isPySpace).headD ' ')) = uwuHead rest from rfl]
        at hcond
      simp [hcond] at h1

theorem sub3_id_of_noTrailUnd {m : List Char} (h : noTrailUndB m = true) :
    subUnderscoreTrailWs m = m := by
  induction m with
  | nil => rfl
  | cons c rest ih =>
    simp only [noTrailUndB, Bool.and_eq_true] at h
    rw [subUnderscoreTrailWs]
    rw [if_neg ?_]
    · rw [ih h.2]
    · intro hcond
      have h1 := h.1
      simp [hcond] at h1

theorem replaceTrailUnd_id {m : List Char} (h : m.reverse.head? ≠ some '_') :
    replaceTrailUnd m = m := by
  rw [replaceTrailUnd, if_neg h]

theorem sub2_id {m : List Char} (h1 : m.reverse.head? ≠ some '\n')
    (h2 : m.reverse.head? ≠ some '_') : subTrailingUnderscores m = m := by
  rw [subTrailingUnderscores, if_neg h1]
  exact replaceTrailUnd_id h2

theorem dropWhile_id_of_head {p : Char → Bool} {m : List Char}
    (h : ∀ k, m.head? = some k → p k = false) : m.dropWhile p = m := by
  cases m with
  | nil => rfl
  | cons c rest => exact List.dropWhile_cons_of_neg (by simp [h c rfl])

theorem head_of_dropWhile_not {p : Char → Bool} {m : List Char} {k : Char}
    (h : (m.dropWhile p).head? = some k) : p k = false := by
  have h2 := List.head?_dropWhile_not p m
  rw [h] at h2
  exact h2

theorem pyRstrip_reverse (m : List Char) :
    (pyRstrip m).reverse = m.reverse.dropWhile isPySpace := by
  rw [pyRstrip, List.reverse_reverse]

theorem head_of_pyRstrip {m : List Char} {k : Char}
    (h : (pyRstrip m).head? = some k) : m.head? = some k := by
  obtain ⟨t, hm, _⟩ := rev_dropWhile_decomp isPySpace m
  rw [hm]
  cases hp : pyRstrip m with
  | nil => rw [hp] at h; exact absurd h (by simp)
  | cons z Z =>
    rw [hp] at h
    rw [show (m.reverse.dropWhile isPySpace).reverse = pyRstrip m from rfl, hp]
    simpa using h

/-- The core of the idempotence argument: the output of `cleanList` satisfies
all the normal-form predicates. -/
theorem cleanList_normal (l : List Char) :
    noUWUB (cleanList l) = true ∧ noTrailUndB (cleanList l) = true ∧
      collapsedB (cleanList l) = true := by
  refine ⟨?_, ?_, ?_⟩
  · exact noUWUB_pyRstrip (noUWUB_dropWhile (noUWUB_collapse
      (noUWUB_sub3 (noUWUB_sub2 (noUWUB_sub1 l)))))
  · exact noTrailUndB_pyRstrip (noTrailUndB_dropWhile (noTrailUndB_collapse
      (noTrailUndB_sub3 (subTrailingUnderscores (subUnderscoreWsUpper l)))))
  · exact collapsedB_pyRstrip (collapsedB_dropWhile (collapsedB_collapse
      (correctPunctList l)))

/-- `cleanList` is idempotent. -/
theorem cleanList_idem (l : List Char) : cleanList (cleanList l) = cleanList l := by
  obtain ⟨hU, hT, hC⟩ := cleanList_normal l
  have hlast_ws : ∀ k, (cleanList l).reverse.head? = some k → isPySpace k = false := by
    intro k hk
    rw [show cleanList l = pyRstrip (pyLstrip (collapseWs (correctPunctList l)))
        from rfl, pyRstrip_reverse] at hk
    exact head_of_dropWhile_not hk
  have hlast_und : (cleanList l).reverse.head? ≠ some '_' := noTrailUnd_last hT
  have hlast_nl : (cleanList l).reverse.head? ≠ some '\n' := by
    intro hcon
    have := hlast_ws '\n' hcon
    exact absurd this (by decide)
  have hhead_ws : ∀ k, (cleanList l).head? = some k → isPySpace k = false := by
    intro k hk
    rw [show cleanList l = pyRstrip (pyLstrip (collapseWs (correctPunctList l)))
        from rfl] at hk
    have h2 := head_of_pyRstrip hk
    exact head_of_dropWhile_not h2
  show pyStrip (collapseWs (subUnderscoreTrailWs (subTrailingUnderscores
    (subUnderscoreWsUpper (cleanList l))))) = cleanList l
  rw [sub1_id_of_noUWUB hU, sub2_id hlast_nl hlast_und, sub3_id_of_noTrailUnd hT]
  rw [collapse_id_of_collapsedB hC]
  rw [pyStrip, pyLstrip, dropWhile_id_of_head hhead_ws]
  rw [pyRstrip, dropWhile_id_of_head hlast_ws, List.reverse_reverse]

/-! ## Claim theorems -/

/-- Claim C3, counterexample: the claim's rewrite (1) allows the whitespace
between the underscore and the uppercase letter to be absent ("optional
whitespace"), but the source pattern `_\s+([A-Z])` requires at least one
whitespace character, so on `"_A"` the code changes nothing while the claimed
rules produce `". A"`. -/
theorem correct_punctuation_opt_ws_counterexample :
    correct_punctuation "_A" = "_A" ∧ correctPunctuationSpec "_A" = ". A" ∧
      correct_punctuation "_A" ≠ correctPunctuationSpec "_A" := by
  refine ⟨?_, ?_, ?_⟩
  · simp only [correct_punctuation, correctPunctList]
    simp +decide [subUnderscoreWsUpper, subTrailingUnderscores, replaceTrailUnd,
      subUnderscoreTrailWs]
  · simp only [correctPunctuationSpec, specSubTrailingUnderscores]
    simp +decide [specSubUnderscoreOptWsUpper, replaceTrailUnd,
      subUnderscoreTrailWs]
  · simp only [correct_punctuation, correctPunctList, correctPunctuationSpec,
      specSubTrailingUnderscores]
    simp +decide [subUnderscoreWsUpper, specSubUnderscoreOptWsUpper,
      subTrailingUnderscores, replaceTrailUnd, subUnderscoreTrailWs]

/-- Claim C3, amended: `correctPunctuation` applies exactly three rewrites in
order, each rewrite's output feeding the next: (1) an underscore followed by
*one-or-more* whitespace characters and an uppercase letter becomes a period,
a space, and that uppercase letter; (2) one-or-more underscores at the very
end of the string — or immediately before a newline that ends the string —
become a single period; (3) a trailing underscore followed by optional
trailing whitespace becomes a period followed by that same whitespace; and
`correctPunctuation("Hello world_ This is great_")` returns
`"Hello world. This is great."`. -/
theorem correct_punctuation_rules :
    (∀ s : String, correct_punctuation s =
      ⟨subUnderscoreTrailWs (subTrailingUnderscores (subUnderscoreWsUpper s.data))⟩) ∧
    (∀ ws : List Char, ∀ u : Char, ∀ rest : List Char,
      ws ≠ [] → ws.all isPySpace = true → isUpperAZ u = true →
      subUnderscoreWsUpper ('_' :: (ws ++ u :: rest)) =
        '.' :: ' ' :: u :: subUnderscoreWsUpper rest) ∧
    (∀ m : List Char, ∀ k : Nat, 1 ≤ k → m.reverse.head? ≠ some '_' →
      subTrailingUnderscores (m ++ List.replicate k '_') = m ++ ['.']) ∧
    (∀ m : List Char, ∀ k : Nat, 1 ≤ k → m.reverse.head? ≠ some '_' →
      subTrailingUnderscores (m ++ List.replicate k '_' ++ ['\n']) =
        m ++ ['.', '\n']) ∧
    (∀ m ws : List Char, ws.all isPySpace = true →
      subUnderscoreTrailWs (m ++ '_' :: ws) = m ++ '.' :: ws) ∧
    correct_punctuation "Hello world_ This is great_" = "Hello world. This is great." := by
  refine ⟨fun s => rfl,
    fun ws u rest hne hws hu => subUnderscoreWsUpper_match hne hws hu rest,
    fun m k hk hm => subTrailingUnderscores_end hk hm,
    fun m k hk hm => subTrailingUnderscores_newline hk hm,
    fun m ws hws => subUnderscoreTrailWs_spec hws m, ?_⟩
  simp only [correct_punctuation, correctPunctList]
  simp +decide [subUnderscoreWsUpper, subTrailingUnderscores, replaceTrailUnd,
    subUnderscoreTrailWs]

/-- Witness for `correct_punctuation_rules` at concrete inputs. -/
theorem correct_punctuation_rules_witness :
    subUnderscoreWsUpper ('_' :: ([' '] ++ 'T' :: [])) =
        '.' :: ' ' :: 'T' :: subUnderscoreWsUpper [] ∧
    subTrailingUnderscores ("great".data ++ List.replicate 2 '_') =
        "great".data ++ ['.'] ∧
    subTrailingUnderscores ("ab".data ++ List.replicate 1 '_' ++ ['\n']) =
        "ab".data ++ ['.', '\n'] ∧
    subUnderscoreTrailWs ("a".data ++ '_' :: [' ', '\t']) =
        "a".data ++ '.' :: [' ', '\t'] :=
  ⟨correct_punctuation_rules.2.1 [' '] 'T' [] (by decide) (by decide) (by decide),
   correct_punctuation_rules.2.2.1 "great".data 2 (by decide) (by decide),
   correct_punctuation_rules.2.2.2.1 "ab".data 1 (by decide) (by decide),
   correct_punctuation_rules.2.2.2.2.1 "a".data [' ', '\t'] (by decide)⟩

/-- Claim C4: `cleanText` is idempotent — its output is a fixed point of
`cleanText`: the cleaned text never ends in whitespace or an underscore, its
whitespace is fully collapsed, and no underscore is left in a position any
`correctPunctuation` rewrite could fire on, so a second pass changes
nothing. -/
theorem clean_ocr_text_idempotent (s : String) :
    clean_ocr_text (clean_ocr_text s) = clean_ocr_text s := by
  show String.mk (cleanList (cleanList s.data)) = String.mk (cleanList s.data)
  exact congrArg String.mk (cleanList_idem s.data)

/-- Claim C9: `cleanText` applies `correctPunctuation`, then collapses every
maximal whitespace run (including newlines and tabs) to a single space, then
strips; on the spec's example it yields `"Hello world. This is great."`. -/
theorem clean_ocr_text_spec :
    (∀ s : String, clean_ocr_text s =
      ⟨pyStrip (collapseWs (correctPunctList s.data))⟩) ∧
    clean_ocr_text "  Hello   world_  This  is  great_  " =
      "Hello world. This is great." ∧
    clean_ocr_text "Hello\n\nworld" = "Hello world" ∧
    clean_ocr_text "Hello\t\tworld" = "Hello world" := by
  refine ⟨fun s => rfl, ?_, ?_, ?_⟩ <;>
    (simp only [clean_ocr_text, cleanList, correctPunctList]
     simp +decide [subUnderscoreWsUpper, subTrailingUnderscores, replaceTrailUnd,
       subUnderscoreTrailWs, collapseWs, pyStrip, pyLstrip, pyRstrip])

/-- Claim C8: `applyCorrections` replaces every case-insensitive whole-word
occurrence of each incorrect entry, leaves substrings of longer words alone,
and returns the input unchanged for an empty or absent mapping; on
`("theater the", {"the": "THE"})` only the standalone word is replaced. -/
theorem apply_ocr_corrections_spec :
    (∀ t : String, apply_ocr_corrections t [] = t) ∧
    apply_ocr_corrections "theater the" [("the", "THE")] = "theater THE" ∧
    apply_ocr_corrections "the the" [("the", "X")] = "X X" ∧
    apply_ocr_corrections "The THE tHe" [("the", "x")] = "x x x" ∧
    apply_ocr_corrections "teh quick brown fox" [("teh", "the")] =
      "the quick brown fox" := by
  refine ⟨fun t => rfl, ?_, ?_, ?_, ?_⟩ <;>
    (simp only [apply_ocr_corrections]
     simp +decide [replaceWB, wordBoundary, matchesCI, isWordChar, lowerAZ])

/-- Claim C10: when the first top-level group of the engine result is empty
(falsy), `extract_text` returns the empty string at once, discarding any text
boxes in later groups — here the `"Hi"` box that would otherwise be
collected. -/
theorem extract_text_discards_after_empty_first_group :
    (∀ gs : List (List TextBox), extract_text ([] :: gs) = some "") ∧
    extract_text [[], [[["p"], ["Hi", "c"]]]] = some "" ∧
    extract_text [[[["p"], ["Hi", "c"]]]] = some "Hi" := by
  refine ⟨fun gs => ?_, by decide, by decide⟩
  simp [extract_text]

/-- Claim C2: on well-formed engine results, `extract_text` collects every
region's recognized string in the engine's returned order (top-level grouping
then per-region), joins them with one ASCII space and strips the result; a
falsy result or a falsy first group yields the empty string as a normal
outcome — in particular the falsy result an engine reports for a blank image
yields `""`. -/
theorem extract_text_agrees_spec :
    (∀ result : List (List TextBox), WFResult result →
        extract_text result = some (extractTextSpec result)) ∧
    extract_text [] = some "" ∧ extract_text [[]] = some "" := by
  refine ⟨fun result h => ?_, rfl, rfl⟩
  cases result with
  | nil => rfl
  | cons g gs =>
    cases g with
    | nil => rfl
    | cons tb tbs =>
      have hgt := groupTexts_of_wf h
      simp [extract_text, extractTextSpec, hgt]

/-- Witness for `extract_text_agrees_spec` on a two-box result. -/
theorem extract_text_agrees_spec_witness :
    extract_text [[[["p"], ["Hello", "c"]], [["p"], ["world", "c"]]]] =
      some (extractTextSpec [[[["p"], ["Hello", "c"]], [["p"], ["world", "c"]]]]) ∧
    extractTextSpec [[[["p"], ["Hello", "c"]], [["p"], ["world", "c"]]]] =
      "Hello world" :=
  ⟨extract_text_agrees_spec.1 _ (by unfold WFResult; decide), by decide⟩

/-- Claim C6: `preprocess` fails with `NotFound` (Python
`FileNotFoundError`) when the argument is not a string, when the path does
not exist, and when the file cannot be decoded as an image; in each case the
only effect is the attempted read. -/
theorem preprocess_image_notfound :
    (∀ env : CvEnv, preprocess_image env .nonstr = ([], .error .notFound)) ∧
    (∀ env : CvEnv, ∀ s : String, env.pathExists s = false →
        preprocess_image env (.str s) = ([], .error .notFound)) ∧
    (∀ env : CvEnv, ∀ s : String, env.pathExists s = true → env.imread s = none →
        preprocess_image env (.str s) = ([.imread], .error .notFound)) := by
  refine ⟨fun env => rfl, fun env s h => ?_, fun env s h1 h2 => ?_⟩
  · simp [preprocess_image, h]
  · simp [preprocess_image, h1, h2]

/-- Witness for `preprocess_image_notfound` in concrete environments. -/
theorem preprocess_image_notfound_witness :
    preprocess_image testEnv .nonstr = ([], .error .notFound) ∧
    preprocess_image envMissing (.str "missing.jpg") = ([], .error .notFound) ∧
    preprocess_image envUndecodable (.str "bad.jpg") = ([.imread], .error .notFound) :=
  ⟨preprocess_image_notfound.1 testEnv,
   preprocess_image_notfound.2.1 envMissing "missing.jpg" rfl,
   preprocess_image_notfound.2.2 envUndecodable "bad.jpg" rfl rfl⟩

/-- Claim C5: contrary to the claim, `preprocess` never returns a buffer for
a valid image path: the first `cv2.getStructuringElement` call passes
`cv2.MORPH_CLOSE` (the value 3, a morphological-operation code) as the shape
argument, which OpenCV rejects, so the call raises `cv2.error` for every
decodable image — here a concrete environment whose every path decodes to a
2×2 white image. -/
theorem preprocess_image_cv_error_concrete :
    testEnv.imread "page.jpg" = some ⟨2, 2, 3, fun _ _ _ => 255⟩ ∧
    preprocess_image testEnv (.str "page.jpg") =
      ([.imread, .cvtBGR2RGB, .cvtRGB2GRAY, .threshold, .getStructElem],
       .error .cvError) :=
  ⟨rfl, rfl⟩

/-- Claim C7, counterexample: the operation sequence the claim asserts —
including an edge-preserving smoothing stage — is not the sequence the code
performs on a valid image; no code path records an edge-preserving smoothing
operation at all. -/
theorem preprocess_image_ops_counterexample :
    (preprocess_image testEnv (.str "page.jpg")).1 ≠ claimC7Ops ∧
    CvOp.edgePreservingSmooth ∉ (preprocess_image testEnv (.str "page.jpg")).1 := by
  exact ⟨by decide, by decide⟩

/-- Claim C7, amended: for every valid image, `preprocess` decodes it,
converts it to canonical RGB ordering, and begins shadow removal — grayscale
conversion, then thresholding to a bright-region mask — but then aborts with
a `cv2.error` while building the morphological-closing kernel, because
`cv2.MORPH_CLOSE` (3) is passed to `cv2.getStructuringElement` as the
structuring-element shape (valid shapes are 0–2); there is no
edge-preserving smoothing stage, and the closing, dilation, inpainting,
LAB conversion, CLAHE-on-luminance, RGB conversion and clamping stages
written downstream in the code are never reached. -/
theorem preprocess_image_ops (env : CvEnv) (s : String) (img : Img)
    (h1 : env.pathExists s = true) (h2 : env.imread s = some img) :
    preprocess_image env (.str s) =
      ([.imread, .cvtBGR2RGB, .cvtRGB2GRAY, .threshold, .getStructElem],
       .error .cvError) := by
  simp [preprocess_image, h1, h2, getStructuringElement, MORPH_CLOSE,
    MORPH_RECT, MORPH_CROSS, MORPH_ELLIPSE]

/-- Witness for `preprocess_image_ops`. -/
theorem preprocess_image_ops_witness :
    preprocess_image testEnv (.str "scan.png") =
      ([.imread, .cvtBGR2RGB, .cvtRGB2GRAY, .threshold, .getStructElem],
       .error .cvError) :=
  preprocess_image_ops testEnv "scan.png" ⟨2, 2, 3, fun _ _ _ => 255⟩ rfl rfl

/-- Claim C1: contrary to the claim, two first-time concurrent callers can
invoke the `PaddleOCR` constructor twice: the `_initialized` check in
`__init__` is not performed under the class lock, so after thread 0 publishes
the instance and passes the check, thread 1 can run `OCREngine()` to
completion — constructing the engine — before thread 0 resumes and
constructs it again.  The final configuration of this legal schedule records
two constructor invocations with both threads finished. -/
theorem ocr_engine_double_construction :
    Reaches (initConfig 2) ⟨⟨true, true, none, 2⟩, [.fin, .fin]⟩ ∧
    (⟨⟨true, true, none, 2⟩, [.fin, .fin]⟩ : Config).g.paddle = 2 := by
  constructor
  · show Relation.ReflTransGen GStep ⟨⟨false, false, none, 0⟩, [.n1, .n1]⟩ _
    refine Relation.ReflTransGen.head (GStep.firstCheckNone _ _ 0 rfl rfl) ?_
    refine Relation.ReflTransGen.head (GStep.acquire _ _ 0 rfl rfl) ?_
    refine Relation.ReflTransGen.head (GStep.secondCheckNone _ _ 0 rfl rfl rfl) ?_
    refine Relation.ReflTransGen.head (GStep.createInst _ _ 0 rfl rfl) ?_
    refine Relation.ReflTransGen.head (GStep.release _ _ 0 rfl rfl) ?_
    refine Relation.ReflTransGen.head (GStep.initCheckFalse _ _ 0 rfl rfl) ?_
    refine Relation.ReflTransGen.head (GStep.firstCheckSome _ _ 1 rfl rfl) ?_
    refine Relation.ReflTransGen.head (GStep.initCheckFalse _ _ 1 rfl rfl) ?_
    refine Relation.ReflTransGen.head (GStep.construct _ _ 1 rfl) ?_
    refine Relation.ReflTransGen.head (GStep.setFlag _ _ 1 rfl) ?_
    refine Relation.ReflTransGen.head (GStep.construct _ _ 0 rfl) ?_
    refine Relation.ReflTransGen.head (GStep.setFlag _ _ 0 rfl) ?_
    exact Relation.ReflTransGen.refl
  · rfl

end ImageToText
